import Mathlib

/-!
Verification of the core of a distributed inference serving system
(consistent-hash ring, circuit breaker, LRU cache, batch processor, worker
pipeline) against its specification.  The C++ components are shallowly
embedded: machine integers are modelled as `Nat`/`Int` with explicit
reduction mod 2^32 where 32-bit overflow matters, byte strings as lists of
byte values, and the stateful objects as explicit state-passing functions.
-/

set_option linter.unusedVariables false

namespace DistInfer

/-! ### FNV-1a hash (ConsistentHash::hash) -/

/-- 2^32, the modulus of `uint32_t` arithmetic. -/
def U32 : Nat := 4294967296

/-- The value `static_cast<uint32_t>(c)` produces for the byte `b` of a
`std::string`, on the target platform (Linux x86-64, where `char` is
signed): bytes below 128 are unchanged, bytes from 128 on are
sign-extended to 32 bits. -/
def charToU32 (b : Nat) : Nat :=
  if b < 128 then b else U32 - 256 + b

/-- One step of the loop body of `ConsistentHash::hash`:
`h ^= static_cast<uint32_t>(c); h *= 16777619u;` in `uint32_t` arithmetic. -/
def fnvStep (h b : Nat) : Nat :=
  ((h ^^^ charToU32 b) * 16777619) % U32

/-- `ConsistentHash::hash` over the bytes of the key, translated from
`src/unnamed/part_002` lines 6-14: `h = 2166136261u`, then the step above
for each byte. -/
def fnvHash (key : List Nat) : Nat :=
  key.foldl fnvStep 2166136261

/-- Modelled from the spec: the reference FNV-1a 32-bit hash over the
UTF-8 bytes of the key, initial state 0x811C9DC5, multiplier 0x01000193,
step h = (h XOR byte) * m mod 2^32.  This is the comparison point for the
bit-exactness claim; the code-derived function is `fnvHash`. -/
def fnv1aRef (key : List Nat) : Nat :=
  key.foldl (fun h b => ((h ^^^ b) * 0x01000193) % U32) 0x811C9DC5

/-! ### Consistent-hash ring (ConsistentHash) -/

/-- A worker identifier: the bytes of its `std::string` id. -/
abbrev NodeId := List Nat

/-- The ring `std::map<uint32_t, std::string>`, modelled as an association
list sorted strictly by hash key. -/
abbrev Ring := List (Nat × NodeId)

/-- `ring_[h] = v`: insert-or-assign in the sorted map. -/
def ringInsert (h : Nat) (v : NodeId) : Ring → Ring
  | [] => [(h, v)]
  | (k, w) :: rest =>
    if h < k then (h, v) :: (k, w) :: rest
    else if h = k then (h, v) :: rest
    else (k, w) :: ringInsert h v rest

/-- `ring_.erase(h)`: remove the entry with key `h`, if present. -/
def ringErase (h : Nat) : Ring → Ring
  | [] => []
  | (k, w) :: rest => if k = h then rest else (k, w) :: ringErase h rest

/-- The `std::map` representation invariant: keys strictly increasing. -/
abbrev ringSorted (r : Ring) : Prop :=
  r.Pairwise (fun a b => a.1 < b.1)

/-- The bytes of `std::to_string(i)` for `i : Nat` (decimal digits). -/
def decimalBytes (i : Nat) : List Nat :=
  (Nat.toDigits 10 i).map Char.toNat

/-- The virtual-node key `node + "#" + std::to_string(i)`; 35 is the byte
of the separator character. -/
def vnodeKey (node : NodeId) (i : Nat) : List Nat :=
  node ++ (35 :: decimalBytes i)

/-- The ring position of virtual node `i` of `node`. -/
def vnodeHash (node : NodeId) (i : Nat) : Nat :=
  fnvHash (vnodeKey node i)

/-- `ConsistentHash::addNode`, translated from `src/unnamed/part_002`
lines 16-23: for i in [0, V), `ring_[hash(node + "#" + to_string(i))] = node`. -/
def addNode (V : Nat) (node : NodeId) (r : Ring) : Ring :=
  (List.range V).foldl (fun acc i => ringInsert (vnodeHash node i) node acc) r

/-- `ConsistentHash::removeNode`, lines 25-32: erase the V virtual-node
positions of `node`. -/
def removeNode (V : Nat) (node : NodeId) (r : Ring) : Ring :=
  (List.range V).foldl (fun acc i => ringErase (vnodeHash node i) acc) r

/-- `ConsistentHash::getNode`, lines 34-45: empty ring returns the empty
string; otherwise `lower_bound(hash(key))` (the first ring entry with
position >= the hash), wrapping to `begin()` when past the end. -/
def getNode (r : Ring) (key : List Nat) : NodeId :=
  match r with
  | [] => []
  | p :: rest =>
    match (p :: rest).find? (fun q => decide (fnvHash key ≤ q.1)) with
    | some q => q.2
    | none => p.2

/-- Helper for `getAllNodes`: iterate the ring in key order, keeping the
`seen` map of already-emitted workers. -/
def getAllNodesAux : Ring → List NodeId → List NodeId
  | [], _ => []
  | (_, v) :: rest, seen =>
    if v ∈ seen then getAllNodesAux rest seen
    else v :: getAllNodesAux rest (v :: seen)

/-- `ConsistentHash::getAllNodes`, lines 47-59: the ring values in key
order with duplicates suppressed via the `seen` map. -/
def getAllNodes (r : Ring) : List NodeId :=
  getAllNodesAux r []

/-! ### Circuit breaker (CircuitBreaker) -/

/-- `CircuitState` from `circuit_breaker.h`. -/
inductive CircuitState
  | CLOSED
  | OPEN
  | HALF_OPEN
  deriving DecidableEq

/-- The state of a `CircuitBreaker` object.  Counters and thresholds are
C++ `int`; the steady-clock instants and the cool-down are modelled in
seconds (the unit `shouldAttemptReset` casts to). -/
structure CircuitBreaker where
  state : CircuitState
  failure_count : Int
  success_count : Int
  failure_threshold : Int
  success_threshold : Int
  timeout : Int
  last_failure_time : Int
  deriving DecidableEq

/-- `CircuitBreaker::shouldAttemptReset` (circuit_breaker.cpp lines
105-112): elapsed seconds since the last failure reach the cool-down. -/
def shouldAttemptReset (now : Int) (cb : CircuitBreaker) : Bool :=
  cb.timeout ≤ now - cb.last_failure_time

/-- `CircuitBreaker::transitionToOpen` (lines 88-91). -/
def transitionToOpen (cb : CircuitBreaker) : CircuitBreaker :=
  { cb with state := CircuitState.OPEN, success_count := 0 }

/-- `CircuitBreaker::transitionToHalfOpen` (lines 93-97). -/
def transitionToHalfOpen (cb : CircuitBreaker) : CircuitBreaker :=
  { cb with state := CircuitState.HALF_OPEN, failure_count := 0, success_count := 0 }

/-- `CircuitBreaker::transitionToClosed` (lines 99-103). -/
def transitionToClosed (cb : CircuitBreaker) : CircuitBreaker :=
  { cb with state := CircuitState.CLOSED, failure_count := 0, success_count := 0 }

/-- `CircuitBreaker::allowRequest` (lines 15-37), with the current
steady-clock instant passed explicitly; returns the result and the
updated breaker. -/
def allowRequest (now : Int) (cb : CircuitBreaker) : Bool × CircuitBreaker :=
  match cb.state with
  | CircuitState.CLOSED => (true, cb)
  | CircuitState.OPEN =>
    if shouldAttemptReset now cb then (true, transitionToHalfOpen cb)
    else (false, cb)
  | CircuitState.HALF_OPEN => (true, cb)

/-- `CircuitBreaker::recordSuccess` (lines 39-54). -/
def recordSuccess (cb : CircuitBreaker) : CircuitBreaker :=
  match cb.state with
  | CircuitState.HALF_OPEN =>
    let cb1 := { cb with success_count := cb.success_count + 1 }
    if cb1.success_threshold ≤ cb1.success_count then transitionToClosed cb1 else cb1
  | CircuitState.CLOSED => { cb with failure_count := 0 }
  | CircuitState.OPEN => cb

/-- `CircuitBreaker::recordFailure` (lines 56-73): stamps
`last_failure_time` with the current instant in every state, then acts on
the state. -/
def recordFailure (now : Int) (cb : CircuitBreaker) : CircuitBreaker :=
  let cb0 := { cb with last_failure_time := now }
  match cb0.state with
  | CircuitState.HALF_OPEN => transitionToOpen cb0
  | CircuitState.CLOSED =>
    let cb1 := { cb0 with failure_count := cb0.failure_count + 1 }
    if cb1.failure_threshold ≤ cb1.failure_count then transitionToOpen cb1 else cb1
  | CircuitState.OPEN => cb0

/-! ### LRU cache (LRUCache, lru_cache.h / batch_processor.h lines 396-489) -/

/-- The state of an `LRUCache<Key, Value>`.  `lst` is `cache_list_` with
the most-recently-used entry at the head (the C++ front); `mapKeys` is
the key set of `cache_map_` (the mapped iterators are not modelled --
presence in the map is what the code branches on, and dereferencing an
iterator is modelled by locating the entry with that key in `lst`). -/
structure LRUCache (K V : Type) where
  capacity : Nat
  lst : List (K × V)
  mapKeys : List K
  hits : Nat
  misses : Nat

/-- A freshly constructed cache of capacity `C`. -/
def lruInit (K V : Type) (C : Nat) : LRUCache K V :=
  ⟨C, [], [], 0, 0⟩

/-- Locate the entry with key `k` and detach it from the list, as the
`splice` of the iterator stored in `cache_map_` does: returns its value
and the list without that entry. -/
def spliceFind {K V : Type} [DecidableEq K] (k : K) :
    List (K × V) → Option (V × List (K × V))
  | [] => none
  | p :: rest =>
    if p.1 = k then some (p.2, rest)
    else
      match spliceFind k rest with
      | some (v, rest2) => some (v, p :: rest2)
      | none => none

/-- `LRUCache::get` (lines 415-429): look the key up in `cache_map_`; on
a miss count it and return nothing; on a hit splice the entry to the
front, count the hit and return its value.  (The inner `none` branch is
unreachable while map and list hold the same keys.) -/
def lruGet {K V : Type} [DecidableEq K] (c : LRUCache K V) (k : K) :
    Option V × LRUCache K V :=
  if k ∈ c.mapKeys then
    match spliceFind k c.lst with
    | some (v, rest) =>
      (some v, { c with lst := (k, v) :: rest, hits := c.hits + 1 })
    | none => (none, { c with misses := c.misses + 1 })
  else (none, { c with misses := c.misses + 1 })

/-- `LRUCache::put` (lines 432-454): an existing key has its value
overwritten and is spliced to the front; a new key first evicts the back
entry when the list is at capacity (erasing its key from the map), then
is inserted at the front of list and map.  (`getLast?` returning `none`
corresponds to `back()` on an empty list, which for capacity 0 the C++
reaches as undefined behaviour; it is modelled as skipping eviction.) -/
def lruPut {K V : Type} [DecidableEq K] (c : LRUCache K V) (k : K) (v : V) :
    LRUCache K V :=
  if k ∈ c.mapKeys then
    match spliceFind k c.lst with
    | some (_, rest) => { c with lst := (k, v) :: rest }
    | none => c
  else
    let c1 :=
      if c.capacity ≤ c.lst.length then
        match c.lst.getLast? with
        | some last =>
          { c with lst := c.lst.dropLast, mapKeys := c.mapKeys.erase last.1 }
        | none => c
      else c
    { c1 with lst := (k, v) :: c1.lst, mapKeys := k :: c1.mapKeys }

/-- `LRUCache::clear` (lines 457-463). -/
def lruClear {K V : Type} (c : LRUCache K V) : LRUCache K V :=
  { c with lst := [], mapKeys := [], hits := 0, misses := 0 }

/-- `LRUCache::size` (lines 466-469). -/
def lruSize {K V : Type} (c : LRUCache K V) : Nat :=
  c.lst.length

/-- One client-visible cache operation. -/
inductive LRUOp (K V : Type)
  | get (k : K)
  | put (k : K) (v : V)
  | clear

/-- Apply one operation to the cache state. -/
def lruStep {K V : Type} [DecidableEq K] (c : LRUCache K V) :
    LRUOp K V → LRUCache K V
  | LRUOp.get k => (lruGet c k).2
  | LRUOp.put k v => lruPut c k v
  | LRUOp.clear => lruClear c

/-- The cache state after a sequence of operations on a fresh cache of
capacity `C`. -/
def lruRun {K V : Type} [DecidableEq K] (C : Nat) (ops : List (LRUOp K V)) :
    LRUCache K V :=
  ops.foldl lruStep (lruInit K V C)

/-! ### Batch processor (BatchProcessor, batch_processor.h lines 276-394) -/

/-- The outcome delivered through a slot's `std::promise`: either
`set_value` with a response or `set_exception` with an error message. -/
inductive Outcome (Resp : Type)
  | ok (r : Resp)
  | err (msg : String)
  deriving DecidableEq

/-- The message of the exception raised for surplus slots when the
callback returns fewer responses than the batch has requests
(batch_processor.h line 352). -/
def noRespMsg : String := "No response for batched request"

/-- `BatchProcessor::processBatch` (lines 331-381).  The callback either
returns a response vector or raises (modelled by `Except`).  On success,
slot `i` receives `responses[i]` when `i < responses.size()` and the
no-response error otherwise; if the callback raises, every slot receives
that exception.  The result pairs each request of the batch with the
outcome delivered to its promise. -/
def processBatch {Req Resp : Type} (cb : List Req → Except String (List Resp))
    (batch : List Req) : List (Req × Outcome Resp) :=
  match batch with
  | [] => []
  | _ =>
    match cb batch with
    | Except.ok responses =>
      batch.enum.map (fun p =>
        match responses.get? p.1 with
        | some r => (p.2, Outcome.ok r)
        | none => (p.2, Outcome.err noRespMsg))
    | Except.error e => batch.map (fun r => (r, Outcome.err e))

/-- One iteration of `BatchProcessor::processingLoop` as the consumer
thread observes it: `arrivals` are the requests producers pushed before
the condition-variable wait returned, `runningNow` is the value of
`running_` read at the `if (!running_) break` check, and `isTimeout`
records whether the wait ended by deadline (used only for metrics). -/
structure LoopEvent (Req : Type) where
  arrivals : List Req
  runningNow : Bool
  isTimeout : Bool

/-- `BatchProcessor::processingLoop` (lines 305-329) run over a schedule
of iterations: each iteration appends the arrivals to the FIFO queue;
when `running_` is observed false the loop breaks at once, delivering
nothing further and leaving the queue as it stands; otherwise up to `B`
requests are drained from the queue front into a batch and
`processBatch` delivers their outcomes.  Returns all deliveries made and
the final contents of the queue. -/
def loopIter {Req Resp : Type} (cb : List Req → Except String (List Resp))
    (B : Nat) :
    List (LoopEvent Req) → List Req → List (Req × Outcome Resp) × List Req
  | [], q => ([], q)
  | e :: es, q =>
    let q1 := q ++ e.arrivals
    if e.runningNow then
      let ds := processBatch cb (q1.take B)
      let rec2 := loopIter cb B es (q1.drop B)
      (ds ++ rec2.1, rec2.2)
    else ([], q1)

/-! ### Worker pipeline (WorkerNode, worker_node.cpp) -/

/-- `InferenceRequest` from worker_node.cpp lines 15-18; the float
payload is abstracted to an arbitrary element type with decidable
equality (the cache compares inputs elementwise). -/
structure InferenceRequest (F : Type) where
  request_id : String
  input_data : List F

/-- `InferenceResponse` from worker_node.cpp lines 20-25. -/
structure InferenceResponse (F : Type) where
  request_id : String
  output_data : List F
  inference_time_us : Int
  cached : Bool

/-- The JSON object `WorkerNode::handleInfer` returns. -/
structure JsonResponse (F : Type) where
  request_id : String
  output_data : List F
  node_id : String
  cached : Bool
  inference_time_us : Int
  deriving DecidableEq

/-- The mutable state of a `WorkerNode` that `handleInfer` touches. -/
structure WorkerState (F : Type) where
  node_id : String
  cache : LRUCache (List F) (List F)
  total_requests : Int
  cache_hits : Int

/-- `WorkerNode::handleInfer` (worker_node.cpp lines 50-83), with
`batch_processor_.process` abstracted as the synchronous oracle
`process` (the call blocks until the batch processor delivers).  The
third component lists the requests submitted to the batch processor
during the call. -/
def handleInfer {F : Type} [DecidableEq F]
    (process : InferenceRequest F → InferenceResponse F)
    (w : WorkerState F) (request_id : String) (input_data : List F) :
    JsonResponse F × WorkerState F × List (InferenceRequest F) :=
  let w1 : WorkerState F := { w with total_requests := w.total_requests + 1 }
  match lruGet w1.cache input_data with
  | (some cv, cache1) =>
    (⟨request_id, cv, w1.node_id, true, 50⟩,
     { w1 with cache := cache1, cache_hits := w1.cache_hits + 1 }, [])
  | (none, cache1) =>
    let inf_resp := process ⟨request_id, input_data⟩
    let cache2 := lruPut cache1 input_data inf_resp.output_data
    (⟨inf_resp.request_id, inf_resp.output_data, w1.node_id, false,
      inf_resp.inference_time_us⟩,
     { w1 with cache := cache2 }, [⟨request_id, input_data⟩])

/-! ### Theorems: circuit breaker -/

/-- C7: the CircuitBreaker implements the specified state machine.
`allowRequest` returns true iff the state is CLOSED, or HALF_OPEN, or
OPEN with the cool-down elapsed (in which case it transitions to
HALF_OPEN with both counters reset to 0); `recordFailure` in CLOSED
increments `failure_count` and transitions to OPEN (resetting
`success_count`) when the count reaches the threshold F; `recordFailure`
in HALF_OPEN transitions to OPEN regardless of accumulated successes;
`recordSuccess` in HALF_OPEN increments `success_count` and transitions
to CLOSED (resetting both counters) when it reaches the threshold S;
`recordSuccess` in CLOSED resets `failure_count` to 0. -/
theorem circuit_breaker_state_machine (fc sc F S T last now : Int) :
    (∀ cb : CircuitBreaker,
      ((allowRequest now cb).1 = true ↔
        cb.state = CircuitState.CLOSED ∨ cb.state = CircuitState.HALF_OPEN ∨
        (cb.state = CircuitState.OPEN ∧ cb.timeout ≤ now - cb.last_failure_time)))
    ∧ allowRequest now ⟨CircuitState.OPEN, fc, sc, F, S, T, last⟩ =
        (if T ≤ now - last then
          (true, ⟨CircuitState.HALF_OPEN, 0, 0, F, S, T, last⟩)
        else (false, ⟨CircuitState.OPEN, fc, sc, F, S, T, last⟩))
    ∧ recordFailure now ⟨CircuitState.CLOSED, fc, sc, F, S, T, last⟩ =
        (if F ≤ fc + 1 then ⟨CircuitState.OPEN, fc + 1, 0, F, S, T, now⟩
        else ⟨CircuitState.CLOSED, fc + 1, sc, F, S, T, now⟩)
    ∧ recordFailure now ⟨CircuitState.HALF_OPEN, fc, sc, F, S, T, last⟩ =
        ⟨CircuitState.OPEN, fc, 0, F, S, T, now⟩
    ∧ recordSuccess ⟨CircuitState.HALF_OPEN, fc, sc, F, S, T, last⟩ =
        (if S ≤ sc + 1 then ⟨CircuitState.CLOSED, 0, 0, F, S, T, last⟩
        else ⟨CircuitState.HALF_OPEN, fc, sc + 1, F, S, T, last⟩)
    ∧ recordSuccess ⟨CircuitState.CLOSED, fc, sc, F, S, T, last⟩ =
        ⟨CircuitState.CLOSED, 0, sc, F, S, T, last⟩ := by
  refine ⟨?_, ?_, ?_, ?_, ?_, ?_⟩
  · intro cb
    obtain ⟨st, a, b, c, d, t, l⟩ := cb
    cases st
    · simp [allowRequest]
    · simp only [allowRequest, shouldAttemptReset, transitionToHalfOpen,
        decide_eq_true_eq]
      split <;> rename_i hc <;> simp [hc]
    · simp [allowRequest]
  · simp only [allowRequest, shouldAttemptReset, transitionToHalfOpen,
      decide_eq_true_eq]
  · simp only [recordFailure, transitionToOpen, decide_eq_true_eq]
  · simp [recordFailure, transitionToOpen]
  · simp only [recordSuccess, transitionToClosed, decide_eq_true_eq]
  · simp [recordSuccess]

/-- Counterexample to C5 as stated: a breaker OPEN since instant 0 with a
30-second cool-down, probed at instant 30.  The first `allowRequest`
admits the probe and flips to HALF_OPEN, but a second `allowRequest`
issued before any outcome is recorded is admitted as well, because
HALF_OPEN admits every request. -/
theorem allowRequest_after_cooldown_admits_repeatedly :
    (allowRequest 30 ⟨CircuitState.OPEN, 3, 0, 5, 2, 30, 0⟩).1 = true
    ∧ (allowRequest 30 ⟨CircuitState.OPEN, 3, 0, 5, 2, 30, 0⟩).2.state =
        CircuitState.HALF_OPEN
    ∧ (allowRequest 30
        (allowRequest 30 ⟨CircuitState.OPEN, 3, 0, 5, 2, 30, 0⟩).2).1 = true := by
  decide

/-- C5 amended: for every CircuitBreaker in OPEN state, once the
cool-down T has elapsed since `last_failure_time`, the next
`allowRequest` returns true and flips the state to HALF_OPEN (resetting
both counters); subsequent `allowRequest` calls before the probe's
outcome is recorded are also admitted, since HALF_OPEN admits every
request. -/
theorem allowRequest_cooldown_probe (fc sc F S T last now now2 : Int)
    (h : T ≤ now - last) :
    allowRequest now ⟨CircuitState.OPEN, fc, sc, F, S, T, last⟩ =
      (true, ⟨CircuitState.HALF_OPEN, 0, 0, F, S, T, last⟩)
    ∧ (allowRequest now2 ⟨CircuitState.HALF_OPEN, 0, 0, F, S, T, last⟩).1 =
        true := by
  constructor
  · simp only [allowRequest, shouldAttemptReset, transitionToHalfOpen]
    rw [if_pos (by simpa using h)]
  · rfl

/-- Witness for the amended C5 at a concrete breaker: OPEN since 0,
T = 30, probed at instants 30 and 31. -/
theorem allowRequest_cooldown_probe_witness :
    (30 : Int) ≤ 30 - 0
    ∧ (allowRequest 30 ⟨CircuitState.OPEN, 3, 0, 5, 2, 30, 0⟩ =
        (true, ⟨CircuitState.HALF_OPEN, 0, 0, 5, 2, 30, 0⟩)
      ∧ (allowRequest 31
          ⟨CircuitState.HALF_OPEN, 0, 0, 5, 2, 30, 0⟩).1 = true) :=
  ⟨by decide, allowRequest_cooldown_probe 3 0 5 2 30 0 30 31 (by decide)⟩

/-- C10: `recordFailure` on an OPEN breaker leaves the state and both
counters unchanged and updates only `last_failure_time` to the current
instant; consequently a later `allowRequest` admits a probe iff at least
T seconds have passed since that failure, so every failure recorded
while OPEN restarts the cool-down window. -/
theorem recordFailure_open_restarts_cooldown (fc sc F S T last now : Int) :
    recordFailure now ⟨CircuitState.OPEN, fc, sc, F, S, T, last⟩ =
      ⟨CircuitState.OPEN, fc, sc, F, S, T, now⟩
    ∧ ∀ now2 : Int,
        ((allowRequest now2
            (recordFailure now ⟨CircuitState.OPEN, fc, sc, F, S, T, last⟩)).1 =
          true ↔ T ≤ now2 - now) := by
  constructor
  · rfl
  · intro now2
    simp only [recordFailure, allowRequest, shouldAttemptReset,
      transitionToHalfOpen, decide_eq_true_eq]
    split <;> rename_i hc <;> simp [hc]

/-! ### Theorems: batch processor -/

/-- A concrete identity callback used to evaluate the consumer loop. -/
def cbIdEx : List Nat → Except String (List Nat) :=
  fun l => Except.ok l

/-- C1 failing scenario evaluated on the code: request 7 is already in
the queue when the consumer loop observes `running_ == false`.  The loop
breaks at once: no outcome at all is delivered to the queued slot, which
stays in the queue with its promise unfulfilled (it is neither answered
nor given a shutdown error); in general a stop-iteration delivers
nothing whatever the queue holds. -/
theorem processingLoop_stop_drops_queued_slot :
    loopIter cbIdEx 32 [⟨[7], false, false⟩] [] =
      (([] : List (Nat × Outcome Nat)), [7])
    ∧ ∀ q arrivals : List Nat,
        loopIter cbIdEx 32 [⟨arrivals, false, false⟩] q =
          (([] : List (Nat × Outcome Nat)), q ++ arrivals) := by
  exact ⟨rfl, fun q arrivals => rfl⟩

/-- A concrete callback returning fewer responses than requests. -/
def cbShortEx : List Nat → Except String (List Nat) :=
  fun _ => Except.ok [5]

/-- C2: when the callback returns a response vector shorter than the
batch, every slot is still delivered exactly one outcome: slot `i` gets
`responses[i]` for `i < len(responses)` and the error
"No response for batched request" for `i >= len(responses)`; the
delivery list pairs each batch request, in order, with its outcome. -/
theorem processBatch_short_responses (Req Resp : Type)
    (cb : List Req → Except String (List Resp)) (batch : List Req)
    (responses : List Resp) (hcb : cb batch = Except.ok responses)
    (hlt : responses.length < batch.length) :
    (processBatch cb batch).length = batch.length
    ∧ (∀ (i : Nat) v, responses[i]? = some v →
        (processBatch cb batch)[i]? =
          (batch[i]?).map (fun r => (r, Outcome.ok v)))
    ∧ (∀ i : Nat, responses.length ≤ i →
        (processBatch cb batch)[i]? =
          (batch[i]?).map (fun r => (r, Outcome.err noRespMsg))) := by
  have hne : batch ≠ [] := by
    intro h
    rw [h] at hlt
    exact Nat.not_lt_zero _ (Nat.lt_of_lt_of_le hlt (Nat.le_refl 0))
  obtain ⟨b, bs, rfl⟩ := List.exists_cons_of_ne_nil hne
  refine ⟨by simp [processBatch, hcb], ?_, ?_⟩
  · intro i v hv
    simp only [processBatch, hcb]
    rw [List.getElem?_map, List.getElem?_enum]
    cases (b :: bs)[i]? <;> simp [hv]
  · intro i hi
    have hnone : responses[i]? = none := by
      simpa using hi
    simp only [processBatch, hcb]
    rw [List.getElem?_map, List.getElem?_enum]
    cases (b :: bs)[i]? <;> simp [hnone]

/-- Witness for C2: a batch of two requests whose callback returns a
single response; slot 0 gets the response, slot 1 the error. -/
theorem processBatch_short_responses_witness :
    cbShortEx [10, 20] = Except.ok [5]
    ∧ ([5] : List Nat).length < ([10, 20] : List Nat).length
    ∧ ((processBatch cbShortEx [10, 20]).length = ([10, 20] : List Nat).length
      ∧ (∀ (i : Nat) v, ([5] : List Nat)[i]? = some v →
          (processBatch cbShortEx [10, 20])[i]? =
            (([10, 20] : List Nat)[i]?).map (fun r => (r, Outcome.ok v)))
      ∧ (∀ i : Nat, ([5] : List Nat).length ≤ i →
          (processBatch cbShortEx [10, 20])[i]? =
            (([10, 20] : List Nat)[i]?).map
              (fun r => (r, Outcome.err noRespMsg)))) :=
  ⟨rfl, by decide,
    processBatch_short_responses Nat Nat cbShortEx [10, 20] [5] rfl (by decide)⟩

/-! ### Theorems: worker pipeline -/

/-- A cache miss leaves the map untouched apart from the miss counter. -/
theorem lruGet_not_mem {K V : Type} [DecidableEq K] (c : LRUCache K V) (k : K)
    (h : k ∉ c.mapKeys) :
    lruGet c k = (none, { c with misses := c.misses + 1 }) := by
  simp [lruGet, h]

/-- Inserting a fresh key makes it the most-recently-used entry, so an
immediately following lookup returns the inserted value. -/
theorem lruGet_put_fresh {K V : Type} [DecidableEq K] (c : LRUCache K V)
    (k : K) (v : V) (h : k ∉ c.mapKeys) :
    (lruGet (lruPut c k v) k).1 = some v := by
  simp [lruPut, lruGet, spliceFind, h]

/-- Concrete identifiers for evaluating the worker at one input. -/
def wIdEx : String := "w1"

/-- A concrete request id. -/
def ridEx : String := "r1"

/-- A second concrete request id. -/
def ridEx2 : String := "r2"

/-- A concrete batch-processing oracle. -/
def processEx : InferenceRequest Nat → InferenceResponse Nat :=
  fun req => ⟨req.request_id, [9], 100, false⟩

/-- A concrete worker whose cache (capacity 1000, as in worker_node.cpp)
already holds the input [1, 2]. -/
def workerEx : WorkerState Nat :=
  ⟨wIdEx, lruPut (lruInit (List Nat) (List Nat) 1000) [1, 2] [3, 4], 0, 0⟩

/-- Counterexample to C3 as stated: on a cache hit `handleInfer` fills
`inference_time_us` with 50 (worker_node.cpp line 65), not 0, even
though the request is served from the cache. -/
theorem handleInfer_hit_time_is_50_not_0 :
    (handleInfer processEx workerEx ridEx [1, 2]).1.cached = true
    ∧ (handleInfer processEx workerEx ridEx [1, 2]).1.inference_time_us = 50
    ∧ (handleInfer processEx workerEx ridEx [1, 2]).1.inference_time_us ≠ 0 := by
  decide

/-- C3 amended: for every inference request whose `input_data` is in the
worker's cache, `handleInfer` increments `cache_hits` and returns a
response with `output_data` equal to the cached value, `cached = true`,
`inference_time_us = 50`, and `node_id` equal to the worker's own id,
without submitting anything to the batch processor. -/
theorem handleInfer_cache_hit (F : Type) [DecidableEq F]
    (process : InferenceRequest F → InferenceResponse F)
    (w : WorkerState F) (rid : String) (input_data cv : List F)
    (h : (lruGet w.cache input_data).1 = some cv) :
    (handleInfer process w rid input_data).1 =
      ⟨rid, cv, w.node_id, true, 50⟩
    ∧ (handleInfer process w rid input_data).2.1.cache_hits =
        w.cache_hits + 1
    ∧ (handleInfer process w rid input_data).2.2 = [] := by
  rcases hmatch : lruGet w.cache input_data with ⟨o, c1⟩
  rw [hmatch] at h
  subst h
  simp [handleInfer, hmatch]

/-- Witness for the amended C3: the concrete worker above holds [1, 2]
with cached value [3, 4]. -/
theorem handleInfer_cache_hit_witness :
    (lruGet workerEx.cache [1, 2]).1 = some [3, 4]
    ∧ ((handleInfer processEx workerEx ridEx [1, 2]).1 =
        ⟨ridEx, [3, 4], workerEx.node_id, true, 50⟩
      ∧ (handleInfer processEx workerEx ridEx [1, 2]).2.1.cache_hits =
          workerEx.cache_hits + 1
      ∧ (handleInfer processEx workerEx ridEx [1, 2]).2.2 = []) :=
  ⟨by decide,
    handleInfer_cache_hit Nat processEx workerEx ridEx [1, 2] [3, 4] (by decide)⟩

/-- C4: a first infer of an input absent from the worker's cache returns
`cached = false` and inserts the pair into the cache (a lookup of the
input in the post-state cache yields the returned output), and an
immediately following infer of the same input on the same worker returns
`cached = true` with the same `output_data`. -/
theorem handleInfer_miss_then_hit (F : Type) [DecidableEq F]
    (process : InferenceRequest F → InferenceResponse F)
    (w : WorkerState F) (rid rid2 : String) (input_data : List F)
    (h : input_data ∉ w.cache.mapKeys) :
    (handleInfer process w rid input_data).1.cached = false
    ∧ (lruGet (handleInfer process w rid input_data).2.1.cache input_data).1 =
        some (handleInfer process w rid input_data).1.output_data
    ∧ (handleInfer process
        (handleInfer process w rid input_data).2.1 rid2 input_data).1.cached =
        true
    ∧ (handleInfer process
        (handleInfer process w rid input_data).2.1 rid2
          input_data).1.output_data =
        (handleInfer process w rid input_data).1.output_data := by
  have hmiss : lruGet w.cache input_data =
      (none, { w.cache with misses := w.cache.misses + 1 }) :=
    lruGet_not_mem w.cache input_data h
  have h2 : input_data ∉
      ({ w.cache with misses := w.cache.misses + 1 } : LRUCache (List F) (List F)).mapKeys := h
  have hget := lruGet_put_fresh { w.cache with misses := w.cache.misses + 1 }
    input_data (process ⟨rid, input_data⟩).output_data h2
  rcases hsecond : lruGet
      (lruPut { w.cache with misses := w.cache.misses + 1 } input_data
        (process ⟨rid, input_data⟩).output_data) input_data with ⟨o2, c2⟩
  rw [hsecond] at hget
  simp only at hget
  subst hget
  simp [handleInfer, hmiss, hsecond]

/-- Witness for C4: a worker with an empty cache of capacity 1000. -/
theorem handleInfer_miss_then_hit_witness :
    ([1, 2] : List Nat) ∉ (lruInit (List Nat) (List Nat) 1000).mapKeys
    ∧ ((handleInfer processEx ⟨wIdEx, lruInit (List Nat) (List Nat) 1000, 0, 0⟩
          ridEx [1, 2]).1.cached = false
      ∧ (lruGet (handleInfer processEx
            ⟨wIdEx, lruInit (List Nat) (List Nat) 1000, 0, 0⟩
            ridEx [1, 2]).2.1.cache [1, 2]).1 =
          some (handleInfer processEx
            ⟨wIdEx, lruInit (List Nat) (List Nat) 1000, 0, 0⟩
            ridEx [1, 2]).1.output_data
      ∧ (handleInfer processEx
          (handleInfer processEx ⟨wIdEx, lruInit (List Nat) (List Nat) 1000, 0, 0⟩
            ridEx [1, 2]).2.1 ridEx2 [1, 2]).1.cached = true
      ∧ (handleInfer processEx
          (handleInfer processEx ⟨wIdEx, lruInit (List Nat) (List Nat) 1000, 0, 0⟩
            ridEx [1, 2]).2.1 ridEx2 [1, 2]).1.output_data =
          (handleInfer processEx ⟨wIdEx, lruInit (List Nat) (List Nat) 1000, 0, 0⟩
            ridEx [1, 2]).1.output_data) :=
  ⟨by decide,
    handleInfer_miss_then_hit Nat processEx
      ⟨wIdEx, lruInit (List Nat) (List Nat) 1000, 0, 0⟩ ridEx ridEx2 [1, 2]
      (by decide)⟩

/-! ### Theorems: hash function and ring lookup -/

/-- On ASCII bytes the code's step agrees with the reference FNV-1a step,
for any accumulator. -/
theorem foldl_fnvStep_ascii (key : List Nat) :
    ∀ h0 : Nat, (∀ b ∈ key, b < 128) →
      key.foldl fnvStep h0 =
        key.foldl (fun h b => ((h ^^^ b) * 0x01000193) % U32) h0 := by
  induction key with
  | nil => intro h0 _; simp
  | cons b rest ih =>
    intro h0 hb
    have hb128 : b < 128 := hb b (List.mem_cons_self b rest)
    have hstep : fnvStep h0 b = ((h0 ^^^ b) * 0x01000193) % U32 := by
      simp [fnvStep, charToU32, hb128]
    simp only [List.foldl_cons, hstep]
    exact ih _ (fun x hx => hb x (List.mem_cons_of_mem b hx))

set_option maxRecDepth 4096 in
/-- Counterexample to C8 as stated: for the UTF-8 key of one e-acute
character (bytes [195, 169]) the code's hash disagrees with reference FNV-1a,
because `static_cast<uint32_t>(c)` sign-extends bytes at and above 0x80
(`char` is signed on the target platform), so the XOR also flips the
upper 24 accumulator bits. -/
theorem fnvHash_differs_from_fnv1a_on_nonascii :
    fnvHash [195, 169] ≠ fnv1aRef [195, 169]
    ∧ fnvHash [195, 169] = 1023043777
    ∧ fnv1aRef [195, 169] = 513665217 := by
  decide

/-- In a sorted ring, `find?` with the lower-bound predicate returns the
entry with the smallest position at or above `h`, or nothing when every
position is below `h`. -/
theorem ring_find_lower_bound (h : Nat) :
    ∀ r : Ring, ringSorted r →
      (match r.find? (fun q => decide (h ≤ q.1)) with
        | some q => q ∈ r ∧ h ≤ q.1 ∧ ∀ q2 ∈ r, h ≤ q2.1 → q.1 ≤ q2.1
        | none => ∀ q2 ∈ r, q2.1 < h) := by
  intro r
  induction r with
  | nil => intro _; simp
  | cons a rest ih =>
    intro hs
    obtain ⟨h1, h2⟩ := List.pairwise_cons.mp hs
    by_cases ha : h ≤ a.1
    · rw [List.find?_cons_of_pos _ (by simpa using ha)]
      refine ⟨List.mem_cons_self a rest, ha, ?_⟩
      intro q2 hq2 _
      rcases List.mem_cons.mp hq2 with rfl | hmem
      · exact Nat.le_refl _
      · exact Nat.le_of_lt (h1 q2 hmem)
    · rw [List.find?_cons_of_neg _ (by simpa using ha)]
      have iht := ih h2
      rcases hres : rest.find? (fun q => decide (h ≤ q.1)) with _ | q
      · rw [hres] at iht
        rw [hres]
        intro q2 hq2
        rcases List.mem_cons.mp hq2 with rfl | hmem
        · exact Nat.lt_of_not_le ha
        · exact iht q2 hmem
      · rw [hres] at iht
        rw [hres]
        refine ⟨List.mem_cons_of_mem a iht.1, iht.2.1, ?_⟩
        intro q2 hq2 hle
        rcases List.mem_cons.mp hq2 with rfl | hmem
        · exact absurd hle ha
        · exact iht.2.2 q2 hmem hle

/-- C8 amended: the ring hash is bit-exact FNV-1a 32-bit for every key
whose UTF-8 bytes are all ASCII (below 0x80) -- for higher bytes the code
XORs the 32-bit sign extension of the byte instead of the byte itself --
and on a non-empty sorted ring `getNode` returns the worker at the
smallest virtual-node position at or above the key's hash, wrapping to
the first (lowest) position when every position is below the hash.  Both
functions are pure functions of the ring state and the key, so lookups
are deterministic across calls for an unchanged ring. -/
theorem fnvHash_ascii_exact_and_getNode_lookup :
    (∀ key : List Nat, (∀ b ∈ key, b < 128) → fnvHash key = fnv1aRef key)
    ∧ (∀ (r : Ring) (key : List Nat), ringSorted r → r ≠ [] →
        ∃ p, p ∈ r ∧ getNode r key = p.2 ∧
          ((fnvHash key ≤ p.1 ∧ ∀ q ∈ r, fnvHash key ≤ q.1 → p.1 ≤ q.1)
            ∨ ((∀ q ∈ r, q.1 < fnvHash key) ∧ r.head? = some p))) := by
  constructor
  · intro key hkey
    exact foldl_fnvStep_ascii key 2166136261 hkey
  · intro r key hs hne
    obtain ⟨a, rest, rfl⟩ := List.exists_cons_of_ne_nil hne
    have hfind := ring_find_lower_bound (fnvHash key) (a :: rest) hs
    rcases hres : (a :: rest).find? (fun q => decide (fnvHash key ≤ q.1))
      with _ | q
    · rw [hres] at hfind
      refine ⟨a, List.mem_cons_self a rest, ?_, Or.inr ⟨hfind, rfl⟩⟩
      simp [getNode, hres]
    · rw [hres] at hfind
      refine ⟨q, hfind.1, ?_, Or.inl ⟨hfind.2.1, hfind.2.2⟩⟩
      simp [getNode, hres]

/-- Witness for the amended C8: the ASCII key "x" (byte 120) on the
sorted two-entry ring [(100, [65]), (200, [66])]. -/
theorem fnvHash_ascii_exact_and_getNode_lookup_witness :
    (∀ b ∈ ([120] : List Nat), b < 128)
    ∧ fnvHash [120] = fnv1aRef [120]
    ∧ ringSorted [(100, [65]), (200, [66])]
    ∧ ([(100, [65]), (200, [66])] : Ring) ≠ []
    ∧ (∃ p, p ∈ ([(100, [65]), (200, [66])] : Ring)
        ∧ getNode [(100, [65]), (200, [66])] [120] = p.2
        ∧ ((fnvHash [120] ≤ p.1
            ∧ ∀ q ∈ ([(100, [65]), (200, [66])] : Ring),
                fnvHash [120] ≤ q.1 → p.1 ≤ q.1)
          ∨ ((∀ q ∈ ([(100, [65]), (200, [66])] : Ring), q.1 < fnvHash [120])
            ∧ ([(100, [65]), (200, [66])] : Ring).head? = some p))) :=
  ⟨by decide,
    fnvHash_ascii_exact_and_getNode_lookup.1 [120] (by decide),
    by decide, by decide,
    fnvHash_ascii_exact_and_getNode_lookup.2 [(100, [65]), (200, [66])] [120]
      (by decide) (by decide)⟩

/-! ### Theorems: ring add/remove invariants -/

/-- Keys after an insert-or-assign are the inserted key plus the old keys. -/
theorem mem_keys_ringInsert (h : Nat) (v : NodeId) (r : Ring) (x : Nat) :
    x ∈ (ringInsert h v r).map Prod.fst ↔ x = h ∨ x ∈ r.map Prod.fst := by
  induction r with
  | nil => simp [ringInsert]
  | cons a rest ih =>
    obtain ⟨k, w⟩ := a
    by_cases h1 : h < k
    · simp [ringInsert, h1]
    · by_cases h2 : h = k
      · subst h2
        rw [show ringInsert h v ((h, w) :: rest) = (h, v) :: rest
          from by simp [ringInsert, h1]]
        simp only [List.map_cons, List.mem_cons]
        tauto
      · rw [show ringInsert h v ((k, w) :: rest) =
            (k, w) :: ringInsert h v rest
          from by simp [ringInsert, h1, h2]]
        simp only [List.map_cons, List.mem_cons, ih]
        tauto

/-- Every entry of the insert result is the new pair or an old entry. -/
theorem mem_ringInsert (h : Nat) (v : NodeId) (r : Ring) (p : Nat × NodeId)
    (hp : p ∈ ringInsert h v r) : p = (h, v) ∨ p ∈ r := by
  induction r with
  | nil => simpa [ringInsert] using hp
  | cons a rest ih =>
    obtain ⟨k, w⟩ := a
    by_cases h1 : h < k
    · rw [show ringInsert h v ((k, w) :: rest) = (h, v) :: (k, w) :: rest
        from by simp [ringInsert, h1]] at hp
      simpa using hp
    · by_cases h2 : h = k
      · subst h2
        rw [show ringInsert h v ((h, w) :: rest) = (h, v) :: rest
          from by simp [ringInsert, h1]] at hp
        rcases List.mem_cons.mp hp with h3 | h3
        · exact Or.inl h3
        · exact Or.inr (List.mem_cons_of_mem _ h3)
      · rw [show ringInsert h v ((k, w) :: rest) =
            (k, w) :: ringInsert h v rest
          from by simp [ringInsert, h1, h2]] at hp
        rcases List.mem_cons.mp hp with h3 | h3
        · exact Or.inr (by simp [h3])
        · rcases ih h3 with h4 | h4
          · exact Or.inl h4
          · exact Or.inr (List.mem_cons_of_mem _ h4)

/-- Inserting a key absent from the map grows it by exactly one entry. -/
theorem length_ringInsert_not_mem (h : Nat) (v : NodeId) (r : Ring)
    (hnm : h ∉ r.map Prod.fst) :
    (ringInsert h v r).length = r.length + 1 := by
  induction r with
  | nil => simp [ringInsert]
  | cons a rest ih =>
    obtain ⟨k, w⟩ := a
    simp only [List.map_cons, List.mem_cons] at hnm
    push_neg at hnm
    by_cases h1 : h < k
    · simp [ringInsert, h1]
    · simp [ringInsert, h1, hnm.1, ih hnm.2]

/-- Erasing a freshly inserted key restores the map exactly. -/
theorem ringErase_ringInsert_self (h : Nat) (v : NodeId) (r : Ring)
    (hnm : h ∉ r.map Prod.fst) :
    ringErase h (ringInsert h v r) = r := by
  induction r with
  | nil => simp [ringInsert, ringErase]
  | cons a rest ih =>
    obtain ⟨k, w⟩ := a
    simp only [List.map_cons, List.mem_cons] at hnm
    push_neg at hnm
    by_cases h1 : h < k
    · simp [ringInsert, h1, ringErase]
    · simp [ringInsert, h1, hnm.1, ringErase, Ne.symm hnm.1, ih hnm.2]

/-- Inserting below every key of the map prepends the new entry. -/
theorem ringInsert_eq_cons (h : Nat) (v : NodeId) (r : Ring)
    (hlt : ∀ p ∈ r, h < p.1) :
    ringInsert h v r = (h, v) :: r := by
  cases r with
  | nil => rfl
  | cons a rest =>
    have := hlt a (List.mem_cons_self a rest)
    obtain ⟨k, w⟩ := a
    simp [ringInsert, this]

/-- Insert-or-assign preserves sortedness of the map. -/
theorem ringSorted_ringInsert (h : Nat) (v : NodeId) (r : Ring)
    (hs : ringSorted r) : ringSorted (ringInsert h v r) := by
  induction r with
  | nil => simp [ringInsert]
  | cons a rest ih =>
    obtain ⟨k, w⟩ := a
    obtain ⟨h1, h2⟩ := List.pairwise_cons.mp hs
    by_cases hk1 : h < k
    · rw [show ringInsert h v ((k, w) :: rest) = (h, v) :: (k, w) :: rest
        from by simp [ringInsert, hk1]]
      refine List.pairwise_cons.mpr ⟨?_, hs⟩
      intro p hp
      rcases List.mem_cons.mp hp with rfl | hmem
      · exact hk1
      · exact Nat.lt_trans hk1 (h1 p hmem)
    · by_cases hk2 : h = k
      · subst hk2
        rw [show ringInsert h v ((h, w) :: rest) = (h, v) :: rest
          from by simp [ringInsert, hk1]]
        exact List.pairwise_cons.mpr ⟨h1, h2⟩
      · rw [show ringInsert h v ((k, w) :: rest) =
            (k, w) :: ringInsert h v rest
          from by simp [ringInsert, hk1, hk2]]
        refine List.pairwise_cons.mpr ⟨?_, ih h2⟩
        intro p hp
        rcases mem_ringInsert h v rest p hp with rfl | hmem
        · exact Nat.lt_of_le_of_ne (Nat.le_of_not_lt hk1) (Ne.symm hk2)
        · exact h1 p hmem

/-- Erase yields a sublist of the map. -/
theorem ringErase_sublist (d : Nat) (r : Ring) : (ringErase d r).Sublist r := by
  induction r with
  | nil => simp [ringErase]
  | cons a rest ih =>
    obtain ⟨k, w⟩ := a
    by_cases h1 : k = d
    · rw [show ringErase d ((k, w) :: rest) = rest from by simp [ringErase, h1]]
      exact List.sublist_cons_self (k, w) rest
    · rw [show ringErase d ((k, w) :: rest) = (k, w) :: ringErase d rest
        from by simp [ringErase, h1]]
      exact List.Sublist.cons₂ (k, w) ih

/-- Erase preserves sortedness of the map. -/
theorem ringSorted_ringErase (d : Nat) (r : Ring) (hs : ringSorted r) :
    ringSorted (ringErase d r) :=
  List.Pairwise.sublist (ringErase_sublist d r) hs

/-- Erasing one key and insert-or-assigning a different key commute on a
sorted map. -/
theorem ringErase_ringInsert_comm (d h : Nat) (v : NodeId) (r : Ring)
    (hs : ringSorted r) (hne : d ≠ h) :
    ringErase d (ringInsert h v r) = ringInsert h v (ringErase d r) := by
  induction r with
  | nil => simp [ringInsert, ringErase, Ne.symm hne]
  | cons a rest ih =>
    obtain ⟨k, w⟩ := a
    obtain ⟨h1, h2⟩ := List.pairwise_cons.mp hs
    by_cases hk1 : h < k
    · rw [show ringInsert h v ((k, w) :: rest) = (h, v) :: (k, w) :: rest
        from by simp [ringInsert, hk1]]
      rw [show ringErase d ((h, v) :: (k, w) :: rest) =
          (h, v) :: ringErase d ((k, w) :: rest)
        from by simp [ringErase, Ne.symm hne]]
      by_cases hkd : k = d
      · rw [show ringErase d ((k, w) :: rest) = rest
          from by simp [ringErase, hkd]]
        rw [ringInsert_eq_cons h v rest
          (fun p hp => Nat.lt_trans hk1 (h1 p hp))]
      · rw [show ringErase d ((k, w) :: rest) = (k, w) :: ringErase d rest
          from by simp [ringErase, hkd]]
        rw [ringInsert_eq_cons h v ((k, w) :: ringErase d rest) ?hlt]
        intro p hp
        rcases List.mem_cons.mp hp with rfl | hmem
        · exact hk1
        · exact Nat.lt_trans hk1
            (h1 p (List.Sublist.mem hmem (ringErase_sublist d rest)))
    · by_cases hk2 : h = k
      · subst hk2
        rw [show ringInsert h v ((h, w) :: rest) = (h, v) :: rest
          from by simp [ringInsert, hk1]]
        rw [show ringErase d ((h, v) :: rest) = (h, v) :: ringErase d rest
          from by simp [ringErase, Ne.symm hne]]
        rw [show ringErase d ((h, w) :: rest) = (h, w) :: ringErase d rest
          from by simp [ringErase, Ne.symm hne]]
        simp [ringInsert]
      · rw [show ringInsert h v ((k, w) :: rest) =
            (k, w) :: ringInsert h v rest
          from by simp [ringInsert, hk1, hk2]]
        by_cases hkd : k = d
        · rw [show ringErase d ((k, w) :: ringInsert h v rest) =
              ringInsert h v rest
            from by simp [ringErase, hkd]]
          rw [show ringErase d ((k, w) :: rest) = rest
            from by simp [ringErase, hkd]]
        · rw [show ringErase d ((k, w) :: ringInsert h v rest) =
              (k, w) :: ringErase d (ringInsert h v rest)
            from by simp [ringErase, hkd]]
          rw [show ringErase d ((k, w) :: rest) = (k, w) :: ringErase d rest
            from by simp [ringErase, hkd]]
          rw [show ringInsert h v ((k, w) :: ringErase d rest) =
              (k, w) :: ringInsert h v (ringErase d rest)
            from by simp [ringInsert, hk1, hk2]]
          rw [ih h2]

/-- Unfolding `addNode` at V+1: the last virtual node is inserted last. -/
theorem addNode_succ (n : Nat) (node : NodeId) (x : Ring) :
    addNode (n + 1) node x =
      ringInsert (vnodeHash node n) node (addNode n node x) := by
  simp [addNode, List.range_succ]

/-- Unfolding `removeNode` at V+1: the last virtual node is erased last. -/
theorem removeNode_succ (n : Nat) (node : NodeId) (x : Ring) :
    removeNode (n + 1) node x =
      ringErase (vnodeHash node n) (removeNode n node x) := by
  simp [removeNode, List.range_succ]

/-- `addNode` preserves sortedness. -/
theorem ringSorted_addNode (V : Nat) (node : NodeId) (r : Ring)
    (hs : ringSorted r) : ringSorted (addNode V node r) := by
  induction V with
  | zero => exact hs
  | succ n ih =>
    rw [addNode_succ]
    exact ringSorted_ringInsert _ _ _ ih

/-- Keys after `addNode` are the virtual-node hashes plus the old keys. -/
theorem mem_keys_addNode (V : Nat) (node : NodeId) (r : Ring) (x : Nat) :
    x ∈ (addNode V node r).map Prod.fst ↔
      (∃ i, i < V ∧ x = vnodeHash node i) ∨ x ∈ r.map Prod.fst := by
  induction V with
  | zero => simp [addNode]
  | succ n ih =>
    rw [addNode_succ, mem_keys_ringInsert, ih]
    constructor
    · rintro (rfl | hrec)
      · exact Or.inl ⟨n, Nat.lt_succ_self n, rfl⟩
      · rcases hrec with ⟨i, hi, hx⟩ | hr
        · exact Or.inl ⟨i, Nat.lt_succ_of_lt hi, hx⟩
        · exact Or.inr hr
    · rintro (⟨i, hi, hx⟩ | hr)
      · rcases Nat.lt_succ_iff_lt_or_eq.mp hi with hi2 | rfl
        · exact Or.inr (Or.inl ⟨i, hi2, hx⟩)
        · exact Or.inl hx
      · exact Or.inr (Or.inr hr)

/-- `removeNode` preserves sortedness. -/
theorem ringSorted_removeNode (V : Nat) (node : NodeId) (r : Ring)
    (hs : ringSorted r) : ringSorted (removeNode V node r) := by
  induction V with
  | zero => exact hs
  | succ n ih =>
    rw [removeNode_succ]
    exact ringSorted_ringErase _ _ ih

/-- Erasing a batch of keys all different from a fresh insert commutes
with that insert on a sorted map. -/
theorem removeNode_ringInsert_comm (V : Nat) (node : NodeId) (h : Nat)
    (v : NodeId) (r : Ring) (hs : ringSorted r)
    (hne : ∀ i, i < V → vnodeHash node i ≠ h) :
    removeNode V node (ringInsert h v r) =
      ringInsert h v (removeNode V node r) := by
  induction V with
  | zero => rfl
  | succ n ih =>
    rw [removeNode_succ, removeNode_succ,
      ih (fun i hi => hne i (Nat.lt_succ_of_lt hi))]
    exact ringErase_ringInsert_comm _ _ _ _
      (ringSorted_removeNode n node r hs) (hne n (Nat.lt_succ_self n))

/-- `getAllNodesAux` emits no duplicates and nothing already seen. -/
theorem getAllNodesAux_nodup (r : Ring) :
    ∀ seen : List NodeId, (getAllNodesAux r seen).Nodup
      ∧ ∀ x ∈ getAllNodesAux r seen, x ∉ seen := by
  induction r with
  | nil => intro seen; simp [getAllNodesAux]
  | cons a rest ih =>
    intro seen
    obtain ⟨k, v⟩ := a
    by_cases hv : v ∈ seen
    · rw [show getAllNodesAux ((k, v) :: rest) seen = getAllNodesAux rest seen
        from by simp [getAllNodesAux, hv]]
      exact ih seen
    · rw [show getAllNodesAux ((k, v) :: rest) seen =
          v :: getAllNodesAux rest (v :: seen)
        from by simp [getAllNodesAux, hv]]
      obtain ⟨hnd, hnotin⟩ := ih (v :: seen)
      refine ⟨List.nodup_cons.mpr ⟨?_, hnd⟩, ?_⟩
      · intro hmem
        exact hnotin v hmem (List.mem_cons_self v seen)
      · intro x hx
        rcases List.mem_cons.mp hx with rfl | hmem
        · exact hv
        · intro hxseen
          exact hnotin x hmem (List.mem_cons_of_mem v hxseen)

/-- `getAllNodes` lists each physical worker at most once. -/
theorem getAllNodes_nodup (r : Ring) : (getAllNodes r).Nodup :=
  (getAllNodesAux_nodup r []).1

/-- The byte string "costarring". -/
def costarringBytes : NodeId := [99, 111, 115, 116, 97, 114, 114, 105, 110, 103]

/-- The byte string "liquid". -/
def liquidBytes : NodeId := [108, 105, 113, 117, 105, 100]

set_option maxRecDepth 16384 in
/-- Counterexample to C6 as stated: with V = 1 virtual node, the vnode
keys "costarring#0" and "liquid#0" are an FNV-1a collision (both hash to
1253420318), so on a ring already holding worker "costarring", adding
the absent worker "liquid" overwrites the existing position — the ring
grows by 0 positions instead of V = 1 — and removing "liquid" again
erases that position entirely, leaving the empty ring instead of
restoring the prior one. -/
theorem addNode_collision_counterexample :
    vnodeHash costarringBytes 0 = 1253420318
    ∧ vnodeHash liquidBytes 0 = 1253420318
    ∧ liquidBytes ∉ getAllNodes (addNode 1 costarringBytes [])
    ∧ (addNode 1 costarringBytes []).length = 1
    ∧ (addNode 1 liquidBytes (addNode 1 costarringBytes [])).length = 1
    ∧ removeNode 1 liquidBytes
        (addNode 1 liquidBytes (addNode 1 costarringBytes [])) = []
    ∧ addNode 1 costarringBytes [] ≠ [] := by
  decide

/-- C6 amended: provided the V virtual-node hashes of `node` are pairwise
distinct and none of them collides with a position already on the
(sorted) ring, `addNode` grows the ring by exactly V positions,
`removeNode` of the same node restores the prior ring exactly, and
`getAllNodes` returns each physical worker at most once (the last
unconditionally). -/
theorem addNode_remove_inverse_length (V : Nat) (node : NodeId) (r : Ring)
    (hs : ringSorted r)
    (hnd : ((List.range V).map (vnodeHash node)).Nodup)
    (hfresh : ∀ i, i < V → vnodeHash node i ∉ r.map Prod.fst) :
    (addNode V node r).length = r.length + V
    ∧ removeNode V node (addNode V node r) = r
    ∧ ∀ r2 : Ring, (getAllNodes r2).Nodup := by
  induction V with
  | zero => exact ⟨rfl, rfl, fun r2 => getAllNodes_nodup r2⟩
  | succ n ih =>
    have hnd1 : ((List.range n).map (vnodeHash node)).Nodup := by
      rw [List.range_succ, List.map_append] at hnd
      exact (List.nodup_append.mp hnd).1
    have hdisj := (List.nodup_append.mp (by
      rw [List.range_succ, List.map_append] at hnd; exact hnd)).2.2
    have hprev : ∀ i, i < n → vnodeHash node i ≠ vnodeHash node n := by
      intro i hi heq
      exact hdisj (List.mem_map_of_mem _ (List.mem_range.mpr hi)) (by simp [heq])
    have hfresh1 : ∀ i, i < n → vnodeHash node i ∉ r.map Prod.fst :=
      fun i hi => hfresh i (Nat.lt_succ_of_lt hi)
    obtain ⟨ihlen, ihcancel, _⟩ := ih hnd1 hfresh1
    have hnotin : vnodeHash node n ∉ (addNode n node r).map Prod.fst := by
      rw [mem_keys_addNode]
      rintro (⟨i, hi, hx⟩ | hmem)
      · exact hprev i hi hx.symm
      · exact hfresh n (Nat.lt_succ_self n) hmem
    refine ⟨?_, ?_, fun r2 => getAllNodes_nodup r2⟩
    · rw [addNode_succ, length_ringInsert_not_mem _ _ _ hnotin, ihlen]
      omega
    · rw [addNode_succ, removeNode_succ,
        removeNode_ringInsert_comm n node (vnodeHash node n) node
          (addNode n node r) (ringSorted_addNode n node r hs)
          (fun i hi => hprev i hi),
        ihcancel]
      exact ringErase_ringInsert_self _ _ r (hfresh n (Nat.lt_succ_self n))

set_option maxRecDepth 16384 in
/-- Witness for the amended C6: V = 2 virtual nodes of worker "A" on the
empty ring. -/
theorem addNode_remove_inverse_length_witness :
    ringSorted ([] : Ring)
    ∧ ((List.range 2).map (vnodeHash [65])).Nodup
    ∧ (∀ i, i < 2 → vnodeHash [65] i ∉ ([] : Ring).map Prod.fst)
    ∧ ((addNode 2 [65] []).length = ([] : Ring).length + 2
      ∧ removeNode 2 [65] (addNode 2 [65] []) = []
      ∧ ∀ r2 : Ring, (getAllNodes r2).Nodup) :=
  ⟨by decide, by decide, by decide,
    addNode_remove_inverse_length 2 [65] [] (by decide) (by decide)
      (by decide)⟩

/-! ### Theorems: LRU cache invariants -/

/-- `spliceFind` misses exactly the keys absent from the list. -/
theorem spliceFind_eq_none {K V : Type} [DecidableEq K] (k : K)
    (l : List (K × V)) (h : k ∉ l.map Prod.fst) : spliceFind k l = none := by
  induction l with
  | nil => rfl
  | cons p tl ih =>
    simp only [List.map_cons, List.mem_cons] at h
    push_neg at h
    simp only [spliceFind, if_neg (show ¬p.1 = k from fun he => h.1 he.symm),
      ih h.2]

/-- A key present in the list is found by `spliceFind`. -/
theorem spliceFind_mem {K V : Type} [DecidableEq K] (k : K)
    (l : List (K × V)) (hm : k ∈ l.map Prod.fst) :
    ∃ v rest, spliceFind k l = some (v, rest) := by
  induction l with
  | nil => simp at hm
  | cons p tl ih =>
    by_cases hp : p.1 = k
    · exact ⟨p.2, tl, by simp [spliceFind, hp]⟩
    · have hm2 : k ∈ tl.map Prod.fst := by
        simp only [List.map_cons, List.mem_cons] at hm
        rcases hm with rfl | hm2
        · exact absurd rfl hp
        · exact hm2
      obtain ⟨v, rest, heq⟩ := ih hm2
      exact ⟨v, p :: rest, by simp [spliceFind, hp, heq]⟩

/-- `spliceFind` detaches exactly one occurrence of the key: the original
list is a permutation of the found entry consed on the remainder. -/
theorem spliceFind_perm {K V : Type} [DecidableEq K] (k : K) :
    ∀ (l rest : List (K × V)) (v : V), spliceFind k l = some (v, rest) →
      l.Perm ((k, v) :: rest) := by
  intro l
  induction l with
  | nil => intro rest v h; simp [spliceFind] at h
  | cons p tl ih =>
    intro rest v h
    obtain ⟨pk, pv⟩ := p
    by_cases hp : pk = k
    · subst hp
      simp only [spliceFind, if_pos rfl] at h
      obtain ⟨hv, hrest⟩ := Prod.mk.injEq .. ▸ Option.some.injEq .. ▸ h
      subst hv
      subst hrest
      exact List.Perm.refl _
    · simp only [spliceFind, if_neg hp] at h
      rcases hsub : spliceFind k tl with _ | ⟨v2, rest2⟩
      · rw [hsub] at h
        simp at h
      · rw [hsub] at h
        simp only [Option.some.injEq, Prod.mk.injEq] at h
        obtain ⟨hv, hrest⟩ := h
        rw [← hv, ← hrest]
        exact ((ih rest2 v2 hsub).cons (pk, pv)).trans
          (List.Perm.swap (k, v2) (pk, pv) rest2)

/-- The internal consistency invariant of the LRU cache: the list fits
the capacity, list keys and map keys are duplicate-free, and map and
list hold exactly the same keys. -/
def lruWF {K V : Type} (c : LRUCache K V) : Prop :=
  c.lst.length ≤ c.capacity
  ∧ (c.lst.map Prod.fst).Nodup
  ∧ c.mapKeys.Nodup
  ∧ ∀ k, k ∈ c.mapKeys ↔ k ∈ c.lst.map Prod.fst

/-- `get` preserves the cache invariant. -/
theorem lruWF_get {K V : Type} [DecidableEq K] (c : LRUCache K V) (k : K)
    (hwf : lruWF c) : lruWF (lruGet c k).2 := by
  obtain ⟨hlen, hndl, hndm, hset⟩ := hwf
  by_cases hk : k ∈ c.mapKeys
  · obtain ⟨v, rest, hsp⟩ := spliceFind_mem k c.lst ((hset k).mp hk)
    have hperm := spliceFind_perm k c.lst rest v hsp
    have hkeys : (c.lst.map Prod.fst).Perm (k :: rest.map Prod.fst) := by
      simpa using hperm.map Prod.fst
    rw [show (lruGet c k).2 =
        { c with lst := (k, v) :: rest, hits := c.hits + 1 }
      from by simp [lruGet, hk, hsp]]
    refine ⟨?_, ?_, hndm, ?_⟩
    · have hlen2 : c.lst.length = rest.length + 1 := by
        simpa using hperm.length_eq
      simp only [List.length_cons]
      omega
    · simpa using (hkeys.nodup_iff).mp hndl
    · intro x
      simpa using (hset x).trans hkeys.mem_iff
  · rw [show (lruGet c k).2 = { c with misses := c.misses + 1 }
      from by simp [lruGet, hk]]
    exact ⟨hlen, hndl, hndm, hset⟩

/-- `put` preserves the cache invariant (capacity at least 1). -/
theorem lruWF_put {K V : Type} [DecidableEq K] (c : LRUCache K V) (k : K)
    (v : V) (hC : 1 ≤ c.capacity) (hwf : lruWF c) : lruWF (lruPut c k v) := by
  obtain ⟨hlen, hndl, hndm, hset⟩ := hwf
  by_cases hk : k ∈ c.mapKeys
  · obtain ⟨v0, rest, hsp⟩ := spliceFind_mem k c.lst ((hset k).mp hk)
    have hperm := spliceFind_perm k c.lst rest v0 hsp
    have hkeys : (c.lst.map Prod.fst).Perm (k :: rest.map Prod.fst) := by
      simpa using hperm.map Prod.fst
    rw [show lruPut c k v = { c with lst := (k, v) :: rest }
      from by simp [lruPut, hk, hsp]]
    refine ⟨?_, ?_, hndm, ?_⟩
    · have hlen2 : c.lst.length = rest.length + 1 := by
        simpa using hperm.length_eq
      simp only [List.length_cons]
      omega
    · simpa using (hkeys.nodup_iff).mp hndl
    · intro x
      simpa using (hset x).trans hkeys.mem_iff
  · have hkl : k ∉ c.lst.map Prod.fst := fun hm => hk ((hset k).mpr hm)
    by_cases hfull : c.capacity ≤ c.lst.length
    · have hlenC : c.lst.length = c.capacity := Nat.le_antisymm hlen hfull
      have hne : c.lst ≠ [] := by
        intro h0
        rw [h0] at hlenC
        simp at hlenC
        omega
      rcases hlast : c.lst.getLast? with _ | last
      · exact absurd (List.getLast?_eq_none_iff.mp hlast) hne
      · have hdecomp : c.lst.dropLast ++ [last] = c.lst :=
          List.dropLast_append_getLast? last (Option.mem_def.mpr hlast)
        have hkeyseq : c.lst.map Prod.fst =
            c.lst.dropLast.map Prod.fst ++ [last.1] := by
          conv_lhs => rw [← hdecomp]
          simp
        have hndfull := hkeyseq ▸ hndl
        obtain ⟨hnd1, _, hdisj⟩ := List.nodup_append.mp hndfull
        rw [show lruPut c k v =
            { c with lst := (k, v) :: c.lst.dropLast,
                     mapKeys := k :: c.mapKeys.erase last.1 }
          from by simp [lruPut, hk, hfull, hlast]]
        refine ⟨?_, ?_, ?_, ?_⟩
        · simp only [List.length_cons, List.length_dropLast]
          omega
        · simp only [List.map_cons]
          refine List.nodup_cons.mpr ⟨?_, hnd1⟩
          intro hmem
          exact hkl (hkeyseq ▸ List.mem_append_left _ hmem)
        · refine List.nodup_cons.mpr ⟨?_, hndm.erase last.1⟩
          intro hmem
          exact hk (List.erase_subset _ _ hmem)
        · intro x
          simp only [List.mem_cons, List.map_cons]
          constructor
          · rintro (rfl | hx)
            · exact Or.inl rfl
            · obtain ⟨hxne, hxm⟩ := hndm.mem_erase_iff.mp hx
              have hxfull := (hset x).mp hxm
              rw [hkeyseq] at hxfull
              rcases List.mem_append.mp hxfull with hxd | hxl
              · exact Or.inr hxd
              · simp at hxl
                exact absurd hxl hxne
          · rintro (rfl | hx)
            · exact Or.inl rfl
            · refine Or.inr (hndm.mem_erase_iff.mpr ⟨?_, (hset x).mpr
                (hkeyseq ▸ List.mem_append_left _ hx)⟩)
              intro hxe
              exact (hdisj hx) (by simp [hxe])
    · rw [show lruPut c k v =
          { c with lst := (k, v) :: c.lst, mapKeys := k :: c.mapKeys }
        from by simp [lruPut, hk, hfull]]
      refine ⟨?_, ?_, ?_, ?_⟩
      · simp only [List.length_cons]
        omega
      · simp only [List.map_cons]
        exact List.nodup_cons.mpr ⟨hkl, hndl⟩
      · exact List.nodup_cons.mpr ⟨hk, hndm⟩
      · intro x
        simp only [List.mem_cons, List.map_cons]
        constructor
        · rintro (rfl | hx)
          · exact Or.inl rfl
          · exact Or.inr ((hset x).mp hx)
        · rintro (rfl | hx)
          · exact Or.inl rfl
          · exact Or.inr ((hset x).mpr hx)

/-- `clear` trivially restores the invariant. -/
theorem lruWF_clear {K V : Type} (c : LRUCache K V) : lruWF (lruClear c) := by
  refine ⟨?_, ?_, ?_, ?_⟩ <;> simp [lruClear]

/-- No operation changes the capacity. -/
theorem lruStep_capacity {K V : Type} [DecidableEq K] (c : LRUCache K V)
    (op : LRUOp K V) : (lruStep c op).capacity = c.capacity := by
  cases op with
  | get k =>
    simp only [lruStep, lruGet]
    split
    · split <;> rfl
    · rfl
  | put k v =>
    simp only [lruStep, lruPut]
    split
    · split <;> rfl
    · split
      · split <;> rfl
      · rfl
  | clear => rfl

/-- Any operation preserves the invariant when the capacity is at
least 1. -/
theorem lruStep_wf {K V : Type} [DecidableEq K] (c : LRUCache K V)
    (op : LRUOp K V) (hC : 1 ≤ c.capacity) (hwf : lruWF c) :
    lruWF (lruStep c op) := by
  cases op with
  | get k => exact lruWF_get c k hwf
  | put k v => exact lruWF_put c k v hC hwf
  | clear => exact lruWF_clear c

/-- After any operation sequence on a fresh cache of capacity `C`, the
state satisfies the invariant and still has capacity `C`. -/
theorem lruRun_wf {K V : Type} [DecidableEq K] (C : Nat) (hC : 1 ≤ C)
    (ops : List (LRUOp K V)) :
    lruWF (lruRun C ops) ∧ (lruRun C ops).capacity = C := by
  suffices h : ∀ c : LRUCache K V, lruWF c → c.capacity = C →
      lruWF (ops.foldl lruStep c) ∧ (ops.foldl lruStep c).capacity = C by
    exact h (lruInit K V C)
      ⟨Nat.zero_le C, List.nodup_nil, List.nodup_nil, fun k => by
        simp [lruInit]⟩ rfl
  induction ops with
  | nil => intro c h1 h2; exact ⟨h1, h2⟩
  | cons op tl ih =>
    intro c h1 h2
    exact ih (lruStep c op) (lruStep_wf c op (h2 ▸ hC) h1)
      ((lruStep_capacity c op).trans h2)

/-- `put` always leaves the written key at the MRU end. -/
theorem lruPut_head {K V : Type} [DecidableEq K] (c : LRUCache K V) (k : K)
    (v : V) (hwf : lruWF c) :
    ((lruPut c k v).lst.map Prod.fst).head? = some k := by
  by_cases hk : k ∈ c.mapKeys
  · obtain ⟨v0, rest, hsp⟩ := spliceFind_mem k c.lst ((hwf.2.2.2 k).mp hk)
    rw [show lruPut c k v = { c with lst := (k, v) :: rest }
      from by simp [lruPut, hk, hsp]]
    rfl
  · rw [show (lruPut c k v).lst = (k, v) ::
        (if c.capacity ≤ c.lst.length then
          match c.lst.getLast? with
          | some last =>
            { c with lst := c.lst.dropLast,
                     mapKeys := c.mapKeys.erase last.1 }
          | none => c
        else c).lst
      from by simp [lruPut, hk]]
    rfl

/-- A `get` of a cached key leaves that key at the MRU end. -/
theorem lruGet_head {K V : Type} [DecidableEq K] (c : LRUCache K V) (k : K)
    (hk : k ∈ c.mapKeys) (hwf : lruWF c) :
    (((lruGet c k).2).lst.map Prod.fst).head? = some k := by
  obtain ⟨v, rest, hsp⟩ := spliceFind_mem k c.lst ((hwf.2.2.2 k).mp hk)
  rw [show (lruGet c k).2 =
      { c with lst := (k, v) :: rest, hits := c.hits + 1 }
    from by simp [lruGet, hk, hsp]]
  rfl

/-- `put` of a fresh key at capacity drops exactly the LRU-end entry and
prepends the new one. -/
theorem lruPut_evict {K V : Type} [DecidableEq K] (c : LRUCache K V) (k : K)
    (v : V) (hk : k ∉ c.mapKeys) (hfull : c.capacity ≤ c.lst.length)
    (hne : c.lst ≠ []) :
    (lruPut c k v).lst = (k, v) :: c.lst.dropLast := by
  rcases hlast : c.lst.getLast? with _ | last
  · exact absurd (List.getLast?_eq_none_iff.mp hlast) hne
  · rw [show lruPut c k v =
        { c with lst := (k, v) :: c.lst.dropLast,
                 mapKeys := k :: c.mapKeys.erase last.1 }
      from by simp [lruPut, hk, hfull, hlast]]

/-- C9: for every operation sequence on a cache of capacity C at least 1,
after each completed `get`, `put`, or `clear` the size is at most C, the
map and the recency list hold exactly the same set of keys with each key
appearing once, and the recency order is maintained at the MRU end:
`put` and `get` of a present key leave that key at the front, and a
`put` of a fresh key at capacity drops the LRU-end entry and prepends
the new one. -/
theorem lru_cache_invariants (K V : Type) [DecidableEq K] (C : Nat)
    (hC : 1 ≤ C) (ops : List (LRUOp K V)) :
    lruSize (lruRun C ops) ≤ C
    ∧ ((lruRun C ops).lst.map Prod.fst).Nodup
    ∧ (lruRun C ops).mapKeys.Nodup
    ∧ (∀ k, k ∈ (lruRun C ops).mapKeys ↔
        k ∈ (lruRun C ops).lst.map Prod.fst)
    ∧ (∀ k v, ((lruPut (lruRun C ops) k v).lst.map Prod.fst).head? = some k)
    ∧ (∀ k, k ∈ (lruRun C ops).mapKeys →
        (((lruGet (lruRun C ops) k).2).lst.map Prod.fst).head? = some k)
    ∧ (∀ k v, k ∉ (lruRun C ops).mapKeys →
        C ≤ (lruRun C ops).lst.length → (lruRun C ops).lst ≠ [] →
        (lruPut (lruRun C ops) k v).lst =
          (k, v) :: (lruRun C ops).lst.dropLast) := by
  obtain ⟨hwf, hcap⟩ := lruRun_wf C hC ops
  refine ⟨?_, hwf.2.1, hwf.2.2.1, hwf.2.2.2, ?_, ?_, ?_⟩
  · exact le_trans hwf.1 (le_of_eq hcap)
  · intro k v
    exact lruPut_head (lruRun C ops) k v hwf
  · intro k hk
    exact lruGet_head (lruRun C ops) k hk hwf
  · intro k v hk hfull hne
    exact lruPut_evict (lruRun C ops) k v hk (le_trans (le_of_eq hcap) hfull)
      hne

/-- Witness for C9: capacity 1, one `put` followed by one `get`. -/
theorem lru_cache_invariants_witness :
    1 ≤ 1
    ∧ (lruSize (lruRun 1 [LRUOp.put 5 7, LRUOp.get 5]) ≤ 1
      ∧ ((lruRun 1 [LRUOp.put 5 7, LRUOp.get 5]).lst.map Prod.fst).Nodup
      ∧ (lruRun 1 [LRUOp.put 5 7, LRUOp.get 5]).mapKeys.Nodup
      ∧ (∀ k, k ∈ (lruRun 1 [LRUOp.put 5 7, LRUOp.get 5]).mapKeys ↔
          k ∈ (lruRun 1 [LRUOp.put 5 7, LRUOp.get 5]).lst.map Prod.fst)
      ∧ (∀ k v, ((lruPut (lruRun 1 [LRUOp.put 5 7, LRUOp.get 5]) k
          v).lst.map Prod.fst).head? = some k)
      ∧ (∀ k, k ∈ (lruRun 1 [LRUOp.put 5 7, LRUOp.get 5]).mapKeys →
          (((lruGet (lruRun 1 [LRUOp.put 5 7, LRUOp.get 5])
            k).2).lst.map Prod.fst).head? = some k)
      ∧ (∀ k v, k ∉ (lruRun 1 [LRUOp.put 5 7, LRUOp.get 5]).mapKeys →
          1 ≤ (lruRun 1 [LRUOp.put 5 7, LRUOp.get 5]).lst.length →
          (lruRun 1 [LRUOp.put 5 7, LRUOp.get 5]).lst ≠ [] →
          (lruPut (lruRun 1 [LRUOp.put 5 7, LRUOp.get 5]) k v).lst =
            (k, v) :: (lruRun 1 [LRUOp.put 5 7,
              LRUOp.get 5]).lst.dropLast)) :=
  ⟨Nat.le_refl 1,
    lru_cache_invariants Nat Nat 1 (Nat.le_refl 1) [LRUOp.put 5 7, LRUOp.get 5]⟩

end DistInfer
